import Mathlib

/-!
# Verification of `scripts/image_compression.py`

A shallow embedding of the image-compression script.  Files are modelled as an
association list from path strings to byte lists; the external GraphicsMagick
tool and the PIL image decoder are oracle parameters (`Env`).  Machine
behaviour that the script relies on is modelled explicitly:

* `pathlib.Path.suffix` / `.name` are implemented on the path string exactly
  as CPython does (last dot of the basename, not at position 0 nor last);
* each `tempfile.TemporaryDirectory()` call yields a fresh, unique directory,
  modelled by a monotone counter `tmpCounter`; the scratch file
  `compressed_<name>` of iteration `k` lives in tmpdir `k`, so a command whose
  output path was built in an earlier iteration can never create the current
  iteration's `temp_compressed` (its tmpdir is distinct — and deleted);
* the local variable `cmd` is assigned only in the `.png` and
  `.jpg`/`.webp` branches; for a `.jpeg` file the stale value of the previous
  iteration persists (or `UnboundLocalError` is raised when there is none,
  caught by the per-file `except`);
* the size gate `new_size < original_size * 0.99` is modelled exactly as the
  rational comparison `100 * new_size < 99 * original_size`.
-/

namespace ImageCompression

/-- Lowercasing, as `str.lower()` on extension strings (ASCII letters). -/
def lowerAscii (s : String) : String := ⟨s.data.map Char.toLower⟩

/-- Characters of the final path component, as `pathlib.Path.name`. -/
def baseNameChars (l : List Char) : List Char :=
  ((l.reverse.takeWhile (fun c => c ≠ '/')).reverse)

/-- The final path component, as `pathlib.Path.name`. -/
def baseName (p : String) : String := ⟨baseNameChars p.data⟩

/-- `pathlib.Path.suffix`: the substring of `name` from its last dot, provided
that dot is neither the first nor the last character; `""` otherwise. -/
def suffixOf (p : String) : String :=
  let n := baseNameChars p.data
  let pre := n.reverse.takeWhile (fun c => c ≠ '.')
  if 0 < pre.length ∧ pre.length < n.length - 1 then ⟨'.' :: pre.reverse⟩
  else ⟨[]⟩

/-- `supported_extensions = {'.png', '.jpg', '.jpeg', '.webp'}` (line 43). -/
def supported_extensions : List String := [".png", ".jpg", ".jpeg", ".webp"]

/-- Result of one `subprocess.run` of the external tool: its exit status and
the bytes it wrote at the command's output path (`none` when no file was
created there). -/
structure ToolResult where
  returncode : Int
  output : Option (List Nat)
deriving DecidableEq, Repr

/-- The `CompressedImageInfo` TypedDict (lines 29-34). -/
structure CompressedImageInfo where
  path : String
  original_size : Nat
  new_size : Nat
deriving DecidableEq, Repr

/-- The messages printed by `compress_images`, in order:
`compressed` for the two `[COMPRESSED]`/size lines (lines 91-96), `rejected`
for `'Compressed image > original image'` (line 98), `error` for
`'[ERROR] Could not process {path}: {e}'` (line 103). -/
inductive LogMsg where
  | compressed (path : String) (original_size new_size : Nat)
  | rejected
  | error (path : String)
deriving DecidableEq, Repr

/-- The scratch path `Path(tmpdir)/f'compressed_{file_path.name}'` of the
temporary directory with counter `k` (lines 51-54). -/
def tempCompressedPath (k : Nat) (name : String) : String :=
  "/tmp/tmp" ++ toString k ++ "/compressed_" ++ name

/-- A built command line (lines 56-71): the exact argv together with the
input path (argv[2]), the compression mode (argv[5]) and the key of the
tmpdir holding the output path (argv[6]). -/
structure Cmd where
  mode : String
  inputPath : String
  tmpKey : Nat
  argv : List String
deriving DecidableEq, Repr

/-- `['gm', 'convert', str(file_path), '-strip', '-compress', mode,
str(temp_compressed)]`. -/
def mkCmd (mode : String) (path : String) (k : Nat) : Cmd :=
  { mode := mode
    inputPath := path
    tmpKey := k
    argv := ["gm", "convert", path, "-strip", "-compress", mode,
             tempCompressedPath k (baseName path)] }

/-- The filesystem: an association list from path to file bytes. -/
abbrev FS := List (String × List Nat)

/-- Read a file's bytes. -/
def fsGet : FS → String → Option (List Nat)
  | [], _ => none
  | (q, c) :: rest, p => if q = p then some c else fsGet rest p

/-- `open(path, 'wb').write(data)` on an existing file: overwrite in place
(path set, order and other entries untouched). -/
def fsSet : FS → String → List Nat → FS
  | [], _, _ => []
  | (q, c) :: rest, p, d =>
      if q = p then (q, d) :: fsSet rest p d else (q, c) :: fsSet rest p d

/-- Byte size of the file at `p` (`stat().st_size`), 0 when absent. -/
def sizeAt (fs : FS) (p : String) : Nat := ((fsGet fs p).getD []).length

/-- The oracles: `readable` is PIL's `Image.open` succeeding on the given
bytes; `tool` is the external compressor, a function of the argv and of the
bytes currently at the argv's input path. -/
structure Env where
  readable : List Nat → Bool
  tool : List String → Option (List Nat) → ToolResult

/-- The mutable state of one `compress_images` call, threaded through the
`for` loop: the filesystem, `result_images`, the printed lines, the
temporary-directory counter, and the loop-local variable `cmd` (which Python
retains across iterations once assigned). -/
structure St where
  fs : FS
  results : List CompressedImageInfo
  log : List LogMsg
  tmpCounter : Nat
  cmd : Option Cmd

/-- The command freshly built for `path` in iteration `k` by the
`if`/`elif` at lines 56-71, when one of the two branches fires. -/
def freshCmd (path : String) (k : Nat) : Option Cmd :=
  if lowerAscii (suffixOf path) = ".png" then some (mkCmd "Zip" path k)
  else if lowerAscii (suffixOf path) = ".jpg" ∨ lowerAscii (suffixOf path) = ".webp" then
    some (mkCmd "LZW" path k)
  else none

/-- The value of the variable `cmd` at line 73: freshly assigned by the
`if`/`elif`, or the stale value of a previous iteration when neither branch
fired (the `.jpeg` case); `none` means `UnboundLocalError`. -/
def selectCmd (stale : Option Cmd) (path : String) (k : Nat) : Option Cmd :=
  match freshCmd path k with
  | some c => some c
  | none => stale

/-- Content of `temp_compressed` after the subprocess ran: the tool wrote
`r.output` at the command's own output path, which is the current iteration's
`temp_compressed` exactly when the command was built with the current tmpdir
key (an output path inside an earlier — deleted — tmpdir is a different
path). -/
def scratchOf (k : Nat) (cmd : Cmd) (r : ToolResult) : Option (List Nat) :=
  if cmd.tmpKey = k then r.output else none

/-- One iteration of the `for file_path in ...` loop (lines 45-103). -/
def processFile (env : Env) (st : St) (path : String) : St :=
  -- lines 46-47: extension allow-list filter
  if lowerAscii (suffixOf path) ∈ supported_extensions then
    match fsGet st.fs path with
    | none =>
        -- `Image.open` raises FileNotFoundError, caught at line 102
        { st with log := st.log ++ [LogMsg.error path] }
    | some content =>
        if env.readable content then
          -- line 51: a fresh TemporaryDirectory
          let k := st.tmpCounter
          match selectCmd st.cmd path k with
          | none =>
              -- `.jpeg` with no prior iteration: UnboundLocalError at line 73,
              -- caught at line 102
              { st with log := st.log ++ [LogMsg.error path], tmpCounter := k + 1 }
          | some cmd =>
              -- line 73: subprocess.run; the tool reads the argv's input path
              let r := env.tool cmd.argv (fsGet st.fs cmd.inputPath)
              let scratch := scratchOf k cmd r
              -- line 76: `result.returncode == 0 and temp_compressed.exists()`
              if r.returncode = 0 ∧ scratch.isSome then
                let original_size := content.length
                let new_size := (scratch.getD []).length
                -- line 80: `new_size < original_size * 0.99`
                if 100 * new_size < 99 * original_size then
                  { st with
                    fs := fsSet st.fs path (scratch.getD [])
                    results := st.results ++
                      [⟨path, original_size, new_size⟩]
                    log := st.log ++
                      [LogMsg.compressed path original_size new_size]
                    tmpCounter := k + 1
                    cmd := some cmd }
                else
                  -- the inner `if` has no `else`: silent fall-through
                  { st with tmpCounter := k + 1, cmd := some cmd }
              else
                -- lines 97-101
                { st with log := st.log ++ [LogMsg.rejected]
                          tmpCounter := k + 1
                          cmd := some cmd }
        else
          -- `Image.open` failed: lines 102-103
          { st with log := st.log ++ [LogMsg.error path] }
  else st

/-- Initial state of one `compress_images` call: `result_images = []`,
`cmd` unbound, temporary-directory counter continuing from `t`. -/
def initSt (fs : FS) (t : Nat) : St :=
  { fs := fs, results := [], log := [], tmpCounter := t, cmd := none }

/-- One full pass (lines 37-104).  `glob('**/*.*')` enumerates the files of
the snapshot; in-place overwrites neither add nor remove entries, so the
iteration sequence is the initial key list. -/
def runPass (env : Env) (fs : FS) (t : Nat) : St :=
  (fs.map Prod.fst).foldl (processFile env) (initSt fs t)

/-- `compress_images`: the returned `result_images`. -/
def compress_images (env : Env) (fs : FS) (t : Nat) : List CompressedImageInfo :=
  (runPass env fs t).results

/-- Per-pass accumulator of `main` (lines 112-116):
`space += image['original_size'] - image['new_size']`. -/
def spaceOf (results : List CompressedImageInfo) : Int :=
  results.foldl
    (fun space img => space + ((img.original_size : Int) - (img.new_size : Int))) 0

/-- The per-pass result lists of `n` successive `compress_images` calls over
the evolving filesystem (each pass re-discovers files from the current
state; the temporary-directory counter keeps growing). -/
def passResultsSeq (env : Env) : Nat → FS → Nat → List (List CompressedImageInfo)
  | 0, _, _ => []
  | Nat.succ n, fs, t =>
      let st := runPass env fs t
      st.results :: passResultsSeq env n st.fs st.tmpCounter

/-- `main` (lines 107-120): `while i <= 10` runs exactly 10 passes, printing
per pass the accumulated `space`; this returns those ten values. -/
def main_spaces (env : Env) : Nat → FS → Nat → List Int
  | 0, _, _ => []
  | Nat.succ n, fs, t =>
      let st := runPass env fs t
      spaceOf st.results :: main_spaces env n st.fs st.tmpCounter

/-- The list of per-pass totals `main` reports (10 iterations, counter
starting fresh). -/
def main_run (env : Env) (fs : FS) : List Int := main_spaces env 10 fs 0

/-! ## Decision-level descriptions used by the claims -/

/-- The subprocess invocation (command and tool result) performed when
`path` is processed in state `st`, if the control flow reaches line 73
with a bound `cmd`. -/
def invocation (env : Env) (st : St) (path : String) : Option (Cmd × ToolResult) :=
  if lowerAscii (suffixOf path) ∈ supported_extensions then
    match fsGet st.fs path with
    | none => none
    | some content =>
        if env.readable content then
          match selectCmd st.cmd path st.tmpCounter with
          | none => none
          | some cmd => some (cmd, env.tool cmd.argv (fsGet st.fs cmd.inputPath))
        else none
  else none

/-- The accepted scratch bytes for `path` in state `st`: `some d` exactly
when the subprocess ran and exited 0, the scratch output exists with bytes
`d`, and `new_size < original_size * 0.99`. -/
def acceptedData (env : Env) (st : St) (path : String) : Option (List Nat) :=
  match invocation env st path with
  | none => none
  | some (cmd, r) =>
      match scratchOf st.tmpCounter cmd r with
      | none => none
      | some d =>
          if r.returncode = 0 ∧ 100 * d.length < 99 * sizeAt st.fs path then some d
          else none

/-- Pass-independent decision for a supported, readable file processed with a
freshly built command: the accepted scratch bytes, if any (the canonical
tmpdir key 0 is used; see `toolScratchIndep`). -/
def decisionOn (env : Env) (path : String) (c : List Nat) : Option (List Nat) :=
  match freshCmd path 0 with
  | none => none
  | some cmd =>
      let r := env.tool cmd.argv (some c)
      match r.output with
      | none => none
      | some d =>
          if r.returncode = 0 ∧ 100 * d.length < 99 * c.length then some d else none

/-- Pass-independent decision for a file with bytes `c?` at path `path`:
`some d` iff one pass, reaching this file untouched with those bytes, accepts
it and rewrites it to `d`. -/
def dec (env : Env) (path : String) : Option (List Nat) → Option (List Nat)
  | none => none
  | some c =>
      if lowerAscii (suffixOf path) ∈ supported_extensions ∧ env.readable c = true then
        decisionOn env path c
      else none

/-- `dec` applied to file contents: the bytes after the file's own iteration. -/
def applyDec (env : Env) (path : String) (c? : Option (List Nat)) : Option (List Nat) :=
  match dec env path c? with
  | some d => some d
  | none => c?

/-- The lines printed while processing one file: the two `[COMPRESSED]`/size
lines on acceptance, nothing on an insufficient improvement (the `else` at
line 97 belongs to the outer `if`), `'Compressed image > original image'`
when the exit status is non-zero or the scratch output is missing, and the
`[ERROR]` line when the file cannot be processed. -/
def stepLog (env : Env) (st : St) (path : String) : List LogMsg :=
  if lowerAscii (suffixOf path) ∈ supported_extensions then
    match fsGet st.fs path with
    | none => [LogMsg.error path]
    | some content =>
        if env.readable content then
          match invocation env st path with
          | none => [LogMsg.error path]
          | some (cmd, r) =>
              match scratchOf st.tmpCounter cmd r with
              | none => [LogMsg.rejected]
              | some d =>
                  if r.returncode = 0 then
                    if 100 * d.length < 99 * content.length then
                      [LogMsg.compressed path content.length d.length]
                    else []
                  else [LogMsg.rejected]
        else [LogMsg.error path]
  else []

/-- The external-tool contract: the tool's behaviour does not depend on which
scratch directory the output path points into (it only writes there). -/
def toolScratchIndep (env : Env) : Prop :=
  ∀ mode path k j c,
    env.tool (mkCmd mode path k).argv c = env.tool (mkCmd mode path j).argv c

/-- Loop invariant: any retained stale `cmd` was built with an earlier
(already deleted) temporary directory. -/
def cmdInv (st : St) : Prop := ∀ c, st.cmd = some c → c.tmpKey < st.tmpCounter

/-! ## Basic filesystem lemmas -/

theorem fsGet_fsSet_ne (fs : FS) (p : String) (d : List Nat) (g : String)
    (h : g ≠ p) : fsGet (fsSet fs p d) g = fsGet fs g := by
  induction fs with
  | nil => rfl
  | cons e rest ih =>
      obtain ⟨q, c⟩ := e
      by_cases hq : q = p
      · subst hq
        have hqg : ¬ q = g := fun hh => h hh.symm
        simp [fsSet, fsGet, hqg, ih]
      · by_cases hg : q = g
        · subst hg
          simp [fsSet, fsGet, hq, ih]
        · simp [fsSet, fsGet, hq, hg, ih]

theorem fsGet_fsSet_self (fs : FS) (p : String) (c d : List Nat)
    (h : fsGet fs p = some c) : fsGet (fsSet fs p d) p = some d := by
  induction fs with
  | nil => simp [fsGet] at h
  | cons e rest ih =>
      obtain ⟨q, cc⟩ := e
      by_cases hq : q = p
      · simp [fsSet, fsGet, hq]
      · simp [fsGet, hq] at h
        simp [fsSet, fsGet, hq, ih h]

theorem fsSet_map_fst (fs : FS) (p : String) (d : List Nat) :
    (fsSet fs p d).map Prod.fst = fs.map Prod.fst := by
  induction fs with
  | nil => rfl
  | cons e rest ih =>
      obtain ⟨q, c⟩ := e
      by_cases hq : q = p <;> simp [fsSet, hq, ih]

theorem fsGet_none_of_not_mem (fs : FS) (g : String)
    (h : g ∉ fs.map Prod.fst) : fsGet fs g = none := by
  induction fs with
  | nil => rfl
  | cons e rest ih =>
      obtain ⟨q, c⟩ := e
      simp only [List.map, List.mem_cons] at h
      push_neg at h
      have hqg : ¬ q = g := fun hh => h.1 hh.symm
      simp [fsGet, hqg, ih h.2]

/-! ## One-iteration characterization -/

theorem processFile_fs_ne (env : Env) (st : St) (path g : String) (hne : g ≠ path) :
    fsGet (processFile env st path).fs g = fsGet st.fs g := by
  simp only [processFile]
  repeat' split
  all_goals simp [fsGet_fsSet_ne _ _ _ _ hne]

theorem processFile_map_fst (env : Env) (st : St) (path : String) :
    (processFile env st path).fs.map Prod.fst = st.fs.map Prod.fst := by
  simp only [processFile]
  repeat' split
  all_goals simp [fsSet_map_fst]

theorem processFile_tmp_le (env : Env) (st : St) (path : String) :
    st.tmpCounter ≤ (processFile env st path).tmpCounter := by
  simp only [processFile]
  repeat' split
  all_goals simp

theorem selectCmd_tmpKey_le (stale : Option Cmd) (path : String) (k : Nat)
    (cmd : Cmd) (hinv : ∀ c, stale = some c → c.tmpKey < k)
    (h : selectCmd stale path k = some cmd) : cmd.tmpKey ≤ k := by
  unfold selectCmd at h
  split at h
  · rename_i c hc
    injection h with h
    subst h
    unfold freshCmd at hc
    split at hc
    · injection hc with hc
      subst hc
      simp [mkCmd]
    · split at hc
      · injection hc with hc
        subst hc
        simp [mkCmd]
      · exact absurd hc (by simp)
  · exact Nat.le_of_lt (hinv cmd h)

/-- The per-iteration effect on `result_images`: exactly the accepted record
is appended. -/
theorem processFile_results (env : Env) (st : St) (path : String) :
    (processFile env st path).results
      = st.results ++ ((acceptedData env st path).map
          (fun d => CompressedImageInfo.mk path (sizeAt st.fs path) d.length)).toList := by
  by_cases hs : lowerAscii (suffixOf path) ∈ supported_extensions
  · rcases hc : fsGet st.fs path with _ | content
    · simp [processFile, acceptedData, invocation, hs, hc]
    · by_cases hr : env.readable content = true
      · rcases hcmd : selectCmd st.cmd path st.tmpCounter with _ | cmd
        · simp [processFile, acceptedData, invocation, hs, hc, hr, hcmd]
        · rcases hscr : scratchOf st.tmpCounter cmd
              (env.tool cmd.argv (fsGet st.fs cmd.inputPath)) with _ | d
          · simp [processFile, acceptedData, invocation, hs, hc, hr, hcmd, hscr]
          · by_cases hrc : (env.tool cmd.argv (fsGet st.fs cmd.inputPath)).returncode = 0
            · by_cases hgate : 100 * d.length < 99 * content.length
              · simp [processFile, acceptedData, invocation, sizeAt,
                      hs, hc, hr, hcmd, hscr, hrc, hgate]
              · simp [processFile, acceptedData, invocation, sizeAt,
                      hs, hc, hr, hcmd, hscr, hrc, hgate]
            · simp [processFile, acceptedData, invocation, sizeAt,
                    hs, hc, hr, hcmd, hscr, hrc]
      · simp [processFile, acceptedData, invocation, hs, hc, hr]
  · simp [processFile, acceptedData, invocation, hs]

/-- The per-iteration effect on the printed lines. -/
theorem processFile_log (env : Env) (st : St) (path : String) :
    (processFile env st path).log = st.log ++ stepLog env st path := by
  by_cases hs : lowerAscii (suffixOf path) ∈ supported_extensions
  · rcases hc : fsGet st.fs path with _ | content
    · simp [processFile, stepLog, invocation, hs, hc]
    · by_cases hr : env.readable content = true
      · rcases hcmd : selectCmd st.cmd path st.tmpCounter with _ | cmd
        · simp [processFile, stepLog, invocation, hs, hc, hr, hcmd]
        · rcases hscr : scratchOf st.tmpCounter cmd
              (env.tool cmd.argv (fsGet st.fs cmd.inputPath)) with _ | d
          · simp [processFile, stepLog, invocation, hs, hc, hr, hcmd, hscr]
          · by_cases hrc : (env.tool cmd.argv (fsGet st.fs cmd.inputPath)).returncode = 0
            · by_cases hgate : 100 * d.length < 99 * content.length
              · simp [processFile, stepLog, invocation, sizeAt,
                      hs, hc, hr, hcmd, hscr, hrc, hgate]
              · simp [processFile, stepLog, invocation, sizeAt,
                      hs, hc, hr, hcmd, hscr, hrc, hgate]
            · simp [processFile, stepLog, invocation, sizeAt,
                    hs, hc, hr, hcmd, hscr, hrc]
      · simp [processFile, stepLog, invocation, hs, hc, hr]
  · simp [processFile, stepLog, invocation, hs]

/-- The per-iteration effect on the processed file's bytes: overwritten by the
accepted scratch bytes, untouched otherwise. -/
theorem processFile_fs_self (env : Env) (st : St) (path : String) :
    fsGet (processFile env st path).fs path
      = match acceptedData env st path with
        | some d => some d
        | none => fsGet st.fs path := by
  by_cases hs : lowerAscii (suffixOf path) ∈ supported_extensions
  · rcases hc : fsGet st.fs path with _ | content
    · simp [processFile, acceptedData, invocation, hs, hc]
    · by_cases hr : env.readable content = true
      · rcases hcmd : selectCmd st.cmd path st.tmpCounter with _ | cmd
        · simp [processFile, acceptedData, invocation, hs, hc, hr, hcmd]
        · rcases hscr : scratchOf st.tmpCounter cmd
              (env.tool cmd.argv (fsGet st.fs cmd.inputPath)) with _ | d
          · simp [processFile, acceptedData, invocation, hs, hc, hr, hcmd, hscr]
          · by_cases hrc : (env.tool cmd.argv (fsGet st.fs cmd.inputPath)).returncode = 0
            · by_cases hgate : 100 * d.length < 99 * content.length
              · simp [processFile, acceptedData, invocation, sizeAt,
                      hs, hc, hr, hcmd, hscr, hrc, hgate,
                      fsGet_fsSet_self st.fs path content d hc]
              · simp [processFile, acceptedData, invocation, sizeAt,
                      hs, hc, hr, hcmd, hscr, hrc, hgate]
            · simp [processFile, acceptedData, invocation, sizeAt,
                    hs, hc, hr, hcmd, hscr, hrc]
      · simp [processFile, acceptedData, invocation, hs, hc, hr]
  · simp [processFile, acceptedData, invocation, hs]

/-- The loop invariant on the stale `cmd` variable is preserved. -/
theorem processFile_cmdInv (env : Env) (st : St) (path : String)
    (hinv : cmdInv st) : cmdInv (processFile env st path) := by
  by_cases hs : lowerAscii (suffixOf path) ∈ supported_extensions
  · rcases hc : fsGet st.fs path with _ | content
    · simpa [processFile, cmdInv, hs, hc] using hinv
    · by_cases hr : env.readable content = true
      · rcases hcmd : selectCmd st.cmd path st.tmpCounter with _ | cmd
        · intro c hcc
          have h2 : (processFile env st path).tmpCounter = st.tmpCounter + 1 := by
            simp [processFile, hs, hc, hr, hcmd]
          simp only [processFile, hs, hc, hr, hcmd] at hcc
          rw [h2]
          exact Nat.lt_succ_of_lt (hinv c (by simpa using hcc))
        · have hk : cmd.tmpKey ≤ st.tmpCounter :=
            selectCmd_tmpKey_le st.cmd path st.tmpCounter cmd
              (fun c hcc => hinv c hcc) hcmd
          intro c hcc
          rcases hscr : scratchOf st.tmpCounter cmd
              (env.tool cmd.argv (fsGet st.fs cmd.inputPath)) with _ | d
          · simp [processFile, hs, hc, hr, hcmd, hscr] at hcc ⊢
            subst hcc
            exact Nat.lt_succ_of_le hk
          · by_cases hrc : (env.tool cmd.argv (fsGet st.fs cmd.inputPath)).returncode = 0
            · by_cases hgate : 100 * d.length < 99 * content.length
              · simp [processFile, hs, hc, hr, hcmd, hscr, hrc, hgate] at hcc ⊢
                subst hcc
                exact Nat.lt_succ_of_le hk
              · simp [processFile, hs, hc, hr, hcmd, hscr, hrc, hgate] at hcc ⊢
                subst hcc
                exact Nat.lt_succ_of_le hk
            · simp [processFile, hs, hc, hr, hcmd, hscr, hrc] at hcc ⊢
              subst hcc
              exact Nat.lt_succ_of_le hk
      · simpa [processFile, cmdInv, hs, hc, hr] using hinv
  · simpa [processFile, cmdInv, hs] using hinv

/-- Under the external-tool contract and the stale-`cmd` invariant, the
per-iteration acceptance decision depends only on the file's path and its
current bytes. -/
theorem acceptedData_eq_dec (env : Env) (st : St) (path : String)
    (H : toolScratchIndep env) (hinv : cmdInv st) :
    acceptedData env st path = dec env path (fsGet st.fs path) := by
  by_cases hs : lowerAscii (suffixOf path) ∈ supported_extensions
  · rcases hc : fsGet st.fs path with _ | content
    · simp [acceptedData, invocation, dec, hs, hc]
    · by_cases hr : env.readable content = true
      · by_cases hpng : lowerAscii (suffixOf path) = ".png"
        · have hH := H "Zip" path st.tmpCounter 0 (some content)
          simp only [mkCmd] at hH
          simp [acceptedData, invocation, dec, decisionOn, selectCmd, freshCmd,
                scratchOf, sizeAt, mkCmd, supported_extensions, hs, hc, hr, hpng, hH]
        · by_cases hjw : lowerAscii (suffixOf path) = ".jpg"
              ∨ lowerAscii (suffixOf path) = ".webp"
          · have hH := H "LZW" path st.tmpCounter 0 (some content)
            simp only [mkCmd] at hH
            rcases hjw with hjw | hjw <;>
              simp [acceptedData, invocation, dec, decisionOn, selectCmd, freshCmd,
                    scratchOf, sizeAt, mkCmd, supported_extensions,
                    hs, hc, hr, hpng, hjw, hH]
          · rcases hcmdst : st.cmd with _ | c
            · simp [acceptedData, invocation, dec, decisionOn, selectCmd, freshCmd,
                    hs, hc, hr, hpng, hjw, hcmdst]
            · have hne : ¬ c.tmpKey = st.tmpCounter := Nat.ne_of_lt (hinv c hcmdst)
              simp [acceptedData, invocation, dec, decisionOn, selectCmd, freshCmd,
                    scratchOf, hs, hc, hr, hpng, hjw, hcmdst, hne]
      · simp [acceptedData, invocation, dec, hs, hc, hr]
  · rcases hc : fsGet st.fs path with _ | content <;>
      simp [acceptedData, invocation, dec, hs, hc]

/-- The record a pass appends for the file at `f`, as a function of the
pre-pass filesystem alone. -/
def passDecRecord (env : Env) (fs : FS) (f : String) : Option CompressedImageInfo :=
  (dec env f (fsGet fs f)).map
    (fun d => CompressedImageInfo.mk f (sizeAt fs f) d.length)

/-- Characterization of the whole `for` loop, by induction along the
discovered file list: the emitted records, the per-file final bytes, the
key set, and the loop invariant. -/
theorem foldl_char (env : Env) (H : toolScratchIndep env) :
    ∀ (R : List String) (st : St), R.Nodup → cmdInv st →
      ((R.foldl (processFile env) st).results
          = st.results ++ R.filterMap (passDecRecord env st.fs))
      ∧ (∀ g, fsGet (R.foldl (processFile env) st).fs g
              = if g ∈ R then applyDec env g (fsGet st.fs g) else fsGet st.fs g)
      ∧ cmdInv (R.foldl (processFile env) st)
      ∧ (R.foldl (processFile env) st).fs.map Prod.fst = st.fs.map Prod.fst := by
  intro R
  induction R with
  | nil =>
      intro st _ hinv
      refine ⟨by simp, by simp, hinv, rfl⟩
  | cons f R ih =>
      intro st hnd hinv
      have hndR : R.Nodup := (List.nodup_cons.mp hnd).2
      have hfR : f ∉ R := (List.nodup_cons.mp hnd).1
      have hinv1 : cmdInv (processFile env st f) := processFile_cmdInv env st f hinv
      obtain ⟨ihres, ihfs, ihinv, ihkeys⟩ := ih (processFile env st f) hndR hinv1
      have hstep := processFile_results env st f
      have hself := processFile_fs_self env st f
      have hAD : acceptedData env st f = dec env f (fsGet st.fs f) :=
        acceptedData_eq_dec env st f H hinv
      have hfsagree : ∀ g ∈ R, fsGet (processFile env st f).fs g = fsGet st.fs g := by
        intro g hg
        exact processFile_fs_ne env st f g (fun hh => hfR (hh ▸ hg))
      refine ⟨?_, ?_, ?_, ?_⟩
      · rw [List.foldl_cons, ihres, hstep, List.filterMap_cons]
        have hcongr : R.filterMap (passDecRecord env (processFile env st f).fs)
            = R.filterMap (passDecRecord env st.fs) := by
          refine List.filterMap_congr ?_
          intro g hg
          rw [passDecRecord, passDecRecord, hfsagree g hg, sizeAt, sizeAt, hfsagree g hg]
        have hrec : ((acceptedData env st f).map
              (fun d => CompressedImageInfo.mk f (sizeAt st.fs f) d.length)).toList
            = (passDecRecord env st.fs f).toList := by
          rw [passDecRecord, hAD]
        rw [hcongr, List.append_assoc, hrec]
        cases passDecRecord env st.fs f <;> simp
      · intro g
        rw [List.foldl_cons, ihfs g]
        by_cases hgR : g ∈ R
        · have hgf : g ≠ f := fun hh => hfR (hh ▸ hgR)
          simp only [hgR, if_true, List.mem_cons, hgR, or_true, if_true]
          rw [processFile_fs_ne env st f g hgf]
        · by_cases hgf : g = f
          · subst hgf
            simp only [hgR, if_false, List.mem_cons, true_or, if_true]
            rw [hself, hAD, applyDec]
          · have : g ∉ f :: R := by
              simp [hgf, hgR]
            simp only [hgR, if_false, this, if_false]
            exact processFile_fs_ne env st f g hgf
      · exact ihinv
      · rw [List.foldl_cons, ihkeys, processFile_map_fst]

/-! ## Whole-pass corollaries -/

theorem initSt_cmdInv (fs : FS) (t : Nat) : cmdInv (initSt fs t) := by
  intro c hc
  simp [initSt] at hc

/-- The result list of one pass, file by file. -/
theorem runPass_results (env : Env) (fs : FS) (t : Nat)
    (H : toolScratchIndep env) (hnd : (fs.map Prod.fst).Nodup) :
    (runPass env fs t).results
      = (fs.map Prod.fst).filterMap (passDecRecord env fs) := by
  obtain ⟨hres, _, _, _⟩ :=
    foldl_char env H (fs.map Prod.fst) (initSt fs t) hnd (initSt_cmdInv fs t)
  simpa [runPass, initSt] using hres

theorem mem_keys_of_fsGet_some (fs : FS) (g : String) (c : List Nat)
    (h : fsGet fs g = some c) : g ∈ fs.map Prod.fst := by
  by_contra hmem
  rw [fsGet_none_of_not_mem fs g hmem] at h
  cases h

/-- The bytes of any file after one pass, file by file. -/
theorem runPass_fsGet (env : Env) (fs : FS) (t : Nat)
    (H : toolScratchIndep env) (hnd : (fs.map Prod.fst).Nodup) (g : String) :
    fsGet (runPass env fs t).fs g = applyDec env g (fsGet fs g) := by
  obtain ⟨_, hfs, _, _⟩ :=
    foldl_char env H (fs.map Prod.fst) (initSt fs t) hnd (initSt_cmdInv fs t)
  have := hfs g
  simp only [runPass, initSt] at this ⊢
  rw [this]
  by_cases hg : g ∈ fs.map Prod.fst
  · simp [hg]
  · simp [hg, fsGet_none_of_not_mem fs g hg, applyDec, dec]

theorem runPass_map_fst (env : Env) (fs : FS) (t : Nat)
    (H : toolScratchIndep env) (hnd : (fs.map Prod.fst).Nodup) :
    (runPass env fs t).fs.map Prod.fst = fs.map Prod.fst := by
  obtain ⟨_, _, _, hkeys⟩ :=
    foldl_char env H (fs.map Prod.fst) (initSt fs t) hnd (initSt_cmdInv fs t)
  simpa [runPass, initSt] using hkeys

/-- A record in one pass's results names the file it came from and a
successful decision on that file's pre-pass bytes. -/
theorem mem_results_elim (env : Env) (fs : FS) (t : Nat)
    (H : toolScratchIndep env) (hnd : (fs.map Prod.fst).Nodup)
    (r : CompressedImageInfo) (hr : r ∈ (runPass env fs t).results) :
    ∃ d, dec env r.path (fsGet fs r.path) = some d
      ∧ r = CompressedImageInfo.mk r.path (sizeAt fs r.path) d.length := by
  rw [runPass_results env fs t H hnd] at hr
  obtain ⟨a, _, ha⟩ := List.mem_filterMap.mp hr
  rcases hd : dec env a (fsGet fs a) with _ | d
  · rw [passDecRecord, hd] at ha
    cases ha
  · rw [passDecRecord, hd] at ha
    simp only [Option.map_some'] at ha
    injection ha with ha
    subst ha
    exact ⟨d, hd, rfl⟩

theorem dec_gate (env : Env) (f : String) (c? : Option (List Nat))
    (d : List Nat) (h : dec env f c? = some d) :
    ∃ c, c? = some c ∧ 100 * d.length < 99 * c.length := by
  rcases c? with _ | c
  · cases h
  · refine ⟨c, rfl, ?_⟩
    rw [dec] at h
    split at h
    · simp only [decisionOn] at h
      split at h
      · cases h
      · split at h
        · cases h
        · split at h
          · rename_i hcond
            injection h with h
            subst h
            exact hcond.2
          · cases h
    · cases h

theorem length_filterMap_mono {α β : Type} (L : List α) (p q : α → Option β)
    (h : ∀ a ∈ L, (q a).isSome → (p a).isSome) :
    (L.filterMap q).length ≤ (L.filterMap p).length := by
  induction L with
  | nil => simp
  | cons a L ih =>
      have hL : ∀ b ∈ L, (q b).isSome → (p b).isSome :=
        fun b hb => h b (List.mem_cons_of_mem a hb)
      rcases hq : q a with _ | bq
      · rcases hp : p a with _ | bp
        · simpa [List.filterMap_cons, hq, hp] using ih hL
        · simp only [List.filterMap_cons, hq, hp]
          exact Nat.le_succ_of_le (ih hL)
      · rcases hp : p a with _ | bp
        · have := h a (List.mem_cons_self a L)
          rw [hq, hp] at this
          simp at this
        · simp only [List.filterMap_cons, hq, hp, List.length_cons]
          exact Nat.succ_le_succ (ih hL)

/-- Unfolding of the acceptance decision: exactly the conditions of line 76
and line 80. -/
theorem acceptedData_iff (env : Env) (st : St) (path : String) (d : List Nat) :
    acceptedData env st path = some d
      ↔ ∃ cmd r, invocation env st path = some (cmd, r)
          ∧ r.returncode = 0
          ∧ scratchOf st.tmpCounter cmd r = some d
          ∧ 100 * d.length < 99 * sizeAt st.fs path := by
  constructor
  · intro h
    rcases hi : invocation env st path with _ | ⟨cmd, r⟩
    · simp [acceptedData, hi] at h
    · rcases hscr : scratchOf st.tmpCounter cmd r with _ | e
      · simp [acceptedData, hi, hscr] at h
      · simp only [acceptedData, hi, hscr] at h
        split at h
        · rename_i hcond
          injection h with h
          subst h
          exact ⟨cmd, r, rfl, hcond.1, hscr, hcond.2⟩
        · cases h
  · rintro ⟨cmd, r, hi, hrc, hscr, hgate⟩
    simp [acceptedData, hi, hscr, hrc, hgate]

theorem invocation_some_elim (env : Env) (st : St) (path : String)
    (cmd : Cmd) (r : ToolResult)
    (h : invocation env st path = some (cmd, r)) :
    lowerAscii (suffixOf path) ∈ supported_extensions
    ∧ ∃ content, fsGet st.fs path = some content ∧ env.readable content = true := by
  by_cases hs : lowerAscii (suffixOf path) ∈ supported_extensions
  · rcases hc : fsGet st.fs path with _ | content
    · simp [invocation, hs, hc] at h
    · by_cases hr : env.readable content = true
      · exact ⟨hs, content, rfl, hr⟩
      · simp [invocation, hs, hc, hr] at h
  · simp [invocation, hs] at h

/-- Every record ever appended to `result_images` shrank strictly. -/
theorem results_new_lt (env : Env) :
    ∀ (R : List String) (st : St),
      (∀ r ∈ st.results, r.new_size < r.original_size) →
      ∀ r ∈ (R.foldl (processFile env) st).results, r.new_size < r.original_size := by
  intro R
  induction R with
  | nil =>
      intro st h
      simpa using h
  | cons f R ih =>
      intro st h
      rw [List.foldl_cons]
      refine ih (processFile env st f) ?_
      intro r hr
      rw [processFile_results env st f] at hr
      rcases List.mem_append.mp hr with hmem | hmem
      · exact h r hmem
      · rcases hA : acceptedData env st f with _ | d
        · rw [hA] at hmem
          simp [Option.toList] at hmem
        · rw [hA] at hmem
          simp only [Option.map_some', Option.toList, List.mem_singleton] at hmem
          subst hmem
          obtain ⟨cmd, rr, _, _, _, hgate⟩ := (acceptedData_iff env st f d).mp hA
          show d.length < sizeAt st.fs f
          omega

/-- A file whose extension is filtered out is never written and never
recorded, whatever else the pass does. -/
theorem foldl_untouched (env : Env) (path : String)
    (h : lowerAscii (suffixOf path) ∉ supported_extensions) :
    ∀ (R : List String) (st : St),
      fsGet (R.foldl (processFile env) st).fs path = fsGet st.fs path
      ∧ (∀ r ∈ (R.foldl (processFile env) st).results,
          r ∈ st.results ∨ r.path ≠ path) := by
  intro R
  induction R with
  | nil =>
      intro st
      exact ⟨rfl, fun r hr => Or.inl hr⟩
  | cons f R ih =>
      intro st
      rw [List.foldl_cons]
      by_cases hf : f = path
      · subst hf
        have hid : processFile env st f = st := by
          simp [processFile, h]
        rw [hid]
        exact ih st
      · obtain ⟨ihfs, ihres⟩ := ih (processFile env st f)
        constructor
        · rw [ihfs]
          exact processFile_fs_ne env st f path (fun hh => hf hh.symm)
        · intro r hr
          rcases ihres r hr with hin | hne
          · rw [processFile_results env st f] at hin
            rcases List.mem_append.mp hin with h1 | h2
            · exact Or.inl h1
            · right
              rcases hA : acceptedData env st f with _ | d
              · rw [hA] at h2
                simp [Option.toList] at h2
              · rw [hA] at h2
                simp only [Option.map_some', Option.toList, List.mem_singleton] at h2
                subst h2
                exact hf
          · exact Or.inr hne

theorem passDecRecord_isSome (env : Env) (fs : FS) (f : String) :
    (passDecRecord env fs f).isSome = (dec env f (fsGet fs f)).isSome := by
  rw [passDecRecord]
  cases dec env f (fsGet fs f) <;> rfl

theorem foldl_space_aux (rs : List CompressedImageInfo) :
    ∀ (a : Int),
      rs.foldl (fun s img => s + ((img.original_size : Int) - (img.new_size : Int))) a
        = a + (rs.map (fun img => (img.original_size : Int) - (img.new_size : Int))).sum := by
  induction rs with
  | nil =>
      intro a
      simp
  | cons x rs ih =>
      intro a
      simp only [List.foldl_cons, List.map_cons, List.sum_cons, ih]
      ring

theorem spaceOf_eq_sum (rs : List CompressedImageInfo) :
    spaceOf rs
      = (rs.map (fun img => (img.original_size : Int) - (img.new_size : Int))).sum := by
  rw [spaceOf, foldl_space_aux]
  simp

theorem main_spaces_eq (env : Env) :
    ∀ (n : Nat) (fs : FS) (t : Nat),
      main_spaces env n fs t = (passResultsSeq env n fs t).map spaceOf := by
  intro n
  induction n with
  | zero =>
      intro fs t
      rfl
  | succ n ih =>
      intro fs t
      simp [main_spaces, passResultsSeq, ih]

theorem passResultsSeq_length (env : Env) :
    ∀ (n : Nat) (fs : FS) (t : Nat), (passResultsSeq env n fs t).length = n := by
  intro n
  induction n with
  | zero =>
      intro fs t
      rfl
  | succ n ih =>
      intro fs t
      simp [passResultsSeq, ih]

/-! ## Concrete oracles and filesystems for witnesses and counterexamples -/

/-- A tool oracle that always exits 0 and writes an empty output file. -/
def toolEmpty : Env :=
  { readable := fun _ => true, tool := fun _ _ => ToolResult.mk 0 (some []) }

/-- A tool oracle that always exits 0 and writes a one-byte output file. -/
def toolOneByte : Env :=
  { readable := fun _ => true, tool := fun _ _ => ToolResult.mk 0 (some [0]) }

/-- A tool oracle that always fails (exit 1, no output). -/
def toolFail : Env :=
  { readable := fun _ => true, tool := fun _ _ => ToolResult.mk 1 none }

/-- An oracle on which no file decodes as an image. -/
def envUnreadable : Env :=
  { readable := fun _ => false, tool := fun _ _ => ToolResult.mk 0 (some []) }

theorem toolEmpty_indep : toolScratchIndep toolEmpty := fun _ _ _ _ _ => rfl

theorem toolOneByte_indep : toolScratchIndep toolOneByte := fun _ _ _ _ _ => rfl

theorem toolFail_indep : toolScratchIndep toolFail := fun _ _ _ _ _ => rfl

/-- One four-byte PNG. -/
def fsPng : FS := [("a.png", [0, 0, 0, 0])]

/-- One one-byte PNG. -/
def fsOneByte : FS := [("a.png", [0])]

/-- One four-byte JPEG (the `.jpeg` spelling). -/
def fsJpeg : FS := [("photo.jpeg", [0, 0, 0, 0])]

/-- One unsupported bitmap next to a PNG. -/
def fsBmp : FS := [("c.bmp", [1, 2, 3]), ("a.png", [0, 0, 0, 0])]

/-! ## The claims -/

/-- C1: for every file processed in a single pass of `compress_images`, a
`CompressedImageInfo` record {path, original_size, new_size} is appended to
the returned list if and only if the subprocess exited with status zero, the
scratch output file exists, and `new_size < original_size * 0.99`
(`acceptedData` is by definition exactly that conjunction, see
`acceptedData_iff`), and in exactly that case the original file's bytes are
replaced by the scratch bytes. -/
theorem c1_result_iff_replaced (env : Env) (st : St) (path : String) :
    ((processFile env st path).results
        = st.results ++ ((acceptedData env st path).map
            (fun d => CompressedImageInfo.mk path (sizeAt st.fs path) d.length)).toList)
    ∧ (fsGet (processFile env st path).fs path
        = match acceptedData env st path with
          | some d => some d
          | none => fsGet st.fs path)
    ∧ ((processFile env st path).results ≠ st.results
        ↔ ∃ cmd r d, invocation env st path = some (cmd, r)
            ∧ r.returncode = 0
            ∧ scratchOf st.tmpCounter cmd r = some d
            ∧ 100 * d.length < 99 * sizeAt st.fs path) := by
  refine ⟨processFile_results env st path, processFile_fs_self env st path, ?_⟩
  rw [processFile_results env st path]
  rcases hA : acceptedData env st path with _ | d
  · simp only [Option.map_none', Option.toList, List.append_nil]
    constructor
    · intro hne
      exact absurd rfl hne
    · rintro ⟨cmd, r, d, hi, hrc, hscr, hgate⟩
      have hsome : acceptedData env st path = some d :=
        (acceptedData_iff env st path d).mpr ⟨cmd, r, hi, hrc, hscr, hgate⟩
      rw [hA] at hsome
      cases hsome
  · constructor
    · intro _
      obtain ⟨cmd, r, hi, hrc, hscr, hgate⟩ := (acceptedData_iff env st path d).mp hA
      exact ⟨cmd, r, d, hi, hrc, hscr, hgate⟩
    · intro _ hcontra
      have := congrArg List.length hcontra
      simp [Option.toList] at this

/-- C2: after one pass every file is either replaced by the accepted,
gate-validated scratch bytes or left with its pre-pass bytes; and a file on
which the tool succeeded with insufficient improvement (saving 1% or less)
keeps its bytes and appears in no result record. -/
theorem c2_pass_atomic_and_threshold (env : Env) (fs : FS) (t : Nat)
    (H : toolScratchIndep env) (hnd : (fs.map Prod.fst).Nodup) :
    (∀ f, fsGet (runPass env fs t).fs f = fsGet fs f
        ∨ ∃ d, dec env f (fsGet fs f) = some d
            ∧ fsGet (runPass env fs t).fs f = some d
            ∧ 100 * d.length < 99 * sizeAt fs f)
    ∧ (∀ f c cmd d, fsGet fs f = some c → freshCmd f 0 = some cmd
        → env.tool cmd.argv (some c) = ToolResult.mk 0 (some d)
        → 99 * c.length ≤ 100 * d.length
        → fsGet (runPass env fs t).fs f = some c
          ∧ ∀ r ∈ (runPass env fs t).results, r.path ≠ f) := by
  constructor
  · intro f
    rw [runPass_fsGet env fs t H hnd f]
    rcases hd : dec env f (fsGet fs f) with _ | d
    · left
      rw [applyDec, hd]
    · right
      obtain ⟨c, hc, hgate⟩ := dec_gate env f (fsGet fs f) d hd
      refine ⟨d, rfl, by rw [applyDec, hd], ?_⟩
      rw [sizeAt, hc]
      simpa using hgate
  · intro f c cmd d hc hfresh htool hgain
    have hdec : dec env f (fsGet fs f) = none := by
      rw [hc, dec]
      split
      · have hng : ¬ 100 * d.length < 99 * c.length := by omega
        simp [decisionOn, hfresh, htool, hng]
      · rfl
    constructor
    · rw [runPass_fsGet env fs t H hnd f, applyDec, hdec, hc]
    · intro r hr hrp
      obtain ⟨e, he, _⟩ := mem_results_elim env fs t H hnd r hr
      rw [hrp, hdec] at he
      cases he

theorem c2_witness :
    (∀ f, fsGet (runPass toolEmpty fsPng 0).fs f = fsGet fsPng f
        ∨ ∃ d, dec toolEmpty f (fsGet fsPng f) = some d
            ∧ fsGet (runPass toolEmpty fsPng 0).fs f = some d
            ∧ 100 * d.length < 99 * sizeAt fsPng f)
    ∧ (∀ f c cmd d, fsGet fsPng f = some c → freshCmd f 0 = some cmd
        → toolEmpty.tool cmd.argv (some c) = ToolResult.mk 0 (some d)
        → 99 * c.length ≤ 100 * d.length
        → fsGet (runPass toolEmpty fsPng 0).fs f = some c
          ∧ ∀ r ∈ (runPass toolEmpty fsPng 0).results, r.path ≠ f) :=
  c2_pass_atomic_and_threshold toolEmpty fsPng 0 toolEmpty_indep (by decide)

/-- C3: the spec is right that `.jpeg` files should be compressed with the
LZW command, but the code's `elif` tests membership in `{'.jpg', '.webp'}`
only, although `.jpeg` is in `supported_extensions`: a `.jpeg` file never
gets a command of its own (first occurrence: `UnboundLocalError`, logged as
a per-file error; no subprocess for it, no record, no modification), while
`.png` and `.jpg` files do get their `Zip`/`LZW` commands. -/
theorem c3_jpeg_never_compressed :
    ".jpeg" ∈ supported_extensions
    ∧ lowerAscii (suffixOf "photo.jpeg") = ".jpeg"
    ∧ freshCmd "photo.jpeg" 0 = none
    ∧ (∀ k, freshCmd "photo.png" k = some (mkCmd "Zip" "photo.png" k))
    ∧ (∀ k, freshCmd "photo.jpg" k = some (mkCmd "LZW" "photo.jpg" k))
    ∧ invocation toolEmpty (initSt fsJpeg 0) "photo.jpeg" = none
    ∧ (runPass toolEmpty fsJpeg 0).log = [LogMsg.error "photo.jpeg"]
    ∧ (runPass toolEmpty fsJpeg 0).results = []
    ∧ fsGet (runPass toolEmpty fsJpeg 0).fs "photo.jpeg" = some [0, 0, 0, 0] :=
  ⟨by decide, rfl, rfl, fun _ => rfl, fun _ => rfl, rfl, rfl, rfl, rfl⟩

/-- C4 counterexample: with a tool that exits 0 and writes a one-byte
output for a one-byte original (no improvement), the subprocess succeeded
and the scratch output exists, yet the pass prints nothing at all — the
diagnostic `'Compressed image > original image'` is not reported, refuting
the claim that the insufficient-improvement case takes the same message
path as a tool failure. -/
theorem c4_counterexample :
    invocation toolOneByte (initSt fsOneByte 0) "a.png"
        = some (mkCmd "Zip" "a.png" 0, ToolResult.mk 0 (some [0]))
    ∧ scratchOf 0 (mkCmd "Zip" "a.png" 0) (ToolResult.mk 0 (some [0])) = some [0]
    ∧ acceptedData toolOneByte (initSt fsOneByte 0) "a.png" = none
    ∧ (runPass toolOneByte fsOneByte 0).log = []
    ∧ (runPass toolOneByte fsOneByte 0).results = []
    ∧ fsGet (runPass toolOneByte fsOneByte 0).fs "a.png" = some [0] :=
  ⟨rfl, rfl, rfl, rfl, rfl, rfl⟩

/-- C4 (amended): when the subprocess succeeds and the scratch output
exists but the improvement is insufficient, the candidate is dropped
silently — no diagnostic message is printed (the
`'Compressed image > original image'` line belongs to the tool-failure
branch only), the original file is left untouched, and no result is
appended. -/
theorem c4_amended_silent_skip (env : Env) (st : St) (path : String)
    (cmd : Cmd) (r : ToolResult) (d : List Nat)
    (hi : invocation env st path = some (cmd, r))
    (hrc : r.returncode = 0)
    (hscr : scratchOf st.tmpCounter cmd r = some d)
    (hgate : ¬ 100 * d.length < 99 * sizeAt st.fs path) :
    (processFile env st path).log = st.log
    ∧ (processFile env st path).results = st.results
    ∧ fsGet (processFile env st path).fs path = fsGet st.fs path := by
  obtain ⟨hs, content, hc, hr⟩ := invocation_some_elim env st path cmd r hi
  have hA : acceptedData env st path = none := by
    simp [acceptedData, hi, hscr, hgate]
  have hgate' : ¬ 100 * d.length < 99 * content.length := by
    rw [sizeAt, hc] at hgate
    simpa using hgate
  refine ⟨?_, ?_, ?_⟩
  · rw [processFile_log env st path]
    simp [stepLog, hs, hc, hr, hi, hscr, hrc, hgate']
  · rw [processFile_results env st path, hA]
    simp [Option.toList]
  · rw [processFile_fs_self env st path, hA]

theorem c4_amended_witness :
    (processFile toolOneByte (initSt fsOneByte 0) "a.png").log
        = (initSt fsOneByte 0).log
    ∧ (processFile toolOneByte (initSt fsOneByte 0) "a.png").results
        = (initSt fsOneByte 0).results
    ∧ fsGet (processFile toolOneByte (initSt fsOneByte 0) "a.png").fs "a.png"
        = fsGet (initSt fsOneByte 0).fs "a.png" :=
  c4_amended_silent_skip toolOneByte (initSt fsOneByte 0) "a.png"
    (mkCmd "Zip" "a.png" 0) (ToolResult.mk 0 (some [0])) [0]
    rfl rfl rfl (by decide)

/-- C5 counterexample: the code checks only `returncode == 0` and
`temp_compressed.exists()` — emptiness of the scratch output is never
tested, so a zero-byte scratch file produced with exit status 0 passes the
size gate against a four-byte original and the original IS overwritten
(with empty bytes) and recorded, refuting the claim. -/
theorem c5_counterexample :
    invocation toolEmpty (initSt fsPng 0) "a.png"
        = some (mkCmd "Zip" "a.png" 0, ToolResult.mk 0 (some []))
    ∧ scratchOf 0 (mkCmd "Zip" "a.png" 0) (ToolResult.mk 0 (some [])) = some []
    ∧ fsGet (runPass toolEmpty fsPng 0).fs "a.png" = some []
    ∧ (runPass toolEmpty fsPng 0).results = [CompressedImageInfo.mk "a.png" 4 0] :=
  ⟨rfl, rfl, rfl, rfl⟩

/-- C5 (amended): a candidate is treated as successfully compressed exactly
when the exit status is zero and the scratch output exists — non-emptiness
is not checked; in particular an empty scratch output with exit 0 does
overwrite a non-empty original and is recorded with new_size 0. -/
theorem c5_amended_empty_overwrites (env : Env) (st : St) (path : String)
    (cmd : Cmd) (r : ToolResult)
    (hi : invocation env st path = some (cmd, r))
    (hrc : r.returncode = 0)
    (hscr : scratchOf st.tmpCounter cmd r = some [])
    (hsz : 0 < sizeAt st.fs path) :
    fsGet (processFile env st path).fs path = some []
    ∧ (processFile env st path).results
        = st.results ++ [CompressedImageInfo.mk path (sizeAt st.fs path) 0] := by
  have hgate : 100 * ([] : List Nat).length < 99 * sizeAt st.fs path := by
    simp only [List.length_nil, Nat.mul_zero]
    omega
  have hA : acceptedData env st path = some [] := by
    simp [acceptedData, hi, hscr, hrc, hgate]
    omega
  constructor
  · rw [processFile_fs_self env st path, hA]
  · rw [processFile_results env st path, hA]
    simp [Option.toList]

theorem c5_amended_witness :
    fsGet (processFile toolEmpty (initSt fsPng 0) "a.png").fs "a.png" = some []
    ∧ (processFile toolEmpty (initSt fsPng 0) "a.png").results
        = (initSt fsPng 0).results ++ [CompressedImageInfo.mk "a.png" (sizeAt fsPng "a.png") 0] :=
  c5_amended_empty_overwrites toolEmpty (initSt fsPng 0) "a.png"
    (mkCmd "Zip" "a.png" 0) (ToolResult.mk 0 (some []))
    rfl rfl rfl (by decide)

/-- C6: a supported candidate whose bytes fail to open as an image is
skipped entirely — no subprocess is invoked for it, no result is
contributed, the failure is logged with the file path, no exception escapes
(the iteration returns a well-defined state), and the pass continues with
the remaining candidates from exactly that state. -/
theorem c6_unreadable_skipped (env : Env) (st : St) (path : String)
    (content : List Nat) (rest : List String)
    (hs : lowerAscii (suffixOf path) ∈ supported_extensions)
    (hc : fsGet st.fs path = some content)
    (hr : env.readable content = false) :
    invocation env st path = none
    ∧ processFile env st path
        = { st with log := st.log ++ [LogMsg.error path] }
    ∧ (path :: rest).foldl (processFile env) st
        = rest.foldl (processFile env)
            { st with log := st.log ++ [LogMsg.error path] } := by
  have hstep : processFile env st path
      = { st with log := st.log ++ [LogMsg.error path] } := by
    simp [processFile, hs, hc, hr]
  exact ⟨by simp [invocation, hs, hc, hr], hstep, by rw [List.foldl_cons, hstep]⟩

theorem c6_witness :
    invocation envUnreadable (initSt fsOneByte 0) "a.png" = none
    ∧ processFile envUnreadable (initSt fsOneByte 0) "a.png"
        = { initSt fsOneByte 0 with
            log := (initSt fsOneByte 0).log ++ [LogMsg.error "a.png"] }
    ∧ ("a.png" :: ["b.png"]).foldl (processFile envUnreadable) (initSt fsOneByte 0)
        = ["b.png"].foldl (processFile envUnreadable)
            { initSt fsOneByte 0 with
              log := (initSt fsOneByte 0).log ++ [LogMsg.error "a.png"] } :=
  c6_unreadable_skipped envUnreadable (initSt fsOneByte 0) "a.png" [0] ["b.png"]
    (by decide) rfl rfl

/-- C7: a file whose lower-cased extension is outside
{.png, .jpg, .jpeg, .webp} is never opened and never handed to the tool
(its iteration is the identity on the whole state, for every oracle), its
bytes are unchanged by a full pass, and it appears in no result record. -/
theorem c7_unsupported_ignored (env : Env) (fs : FS) (t : Nat) (path : String)
    (h : lowerAscii (suffixOf path) ∉ supported_extensions) :
    (∀ st, processFile env st path = st)
    ∧ (∀ st, invocation env st path = none)
    ∧ fsGet (runPass env fs t).fs path = fsGet fs path
    ∧ ∀ r ∈ (runPass env fs t).results, r.path ≠ path := by
  obtain ⟨hfs, hres⟩ := foldl_untouched env path h (fs.map Prod.fst) (initSt fs t)
  refine ⟨fun st => by simp [processFile, h],
          fun st => by simp [invocation, h], ?_, ?_⟩
  · simpa [runPass, initSt] using hfs
  · intro r hr
    rcases hres r hr with hin | hne
    · simp [initSt] at hin
    · exact hne

theorem c7_witness :
    (∀ st, processFile toolEmpty st "c.bmp" = st)
    ∧ (∀ st, invocation toolEmpty st "c.bmp" = none)
    ∧ fsGet (runPass toolEmpty fsBmp 0).fs "c.bmp" = fsGet fsBmp "c.bmp"
    ∧ ∀ r ∈ (runPass toolEmpty fsBmp 0).results, r.path ≠ "c.bmp" :=
  c7_unsupported_ignored toolEmpty fsBmp 0 "c.bmp" (by decide)

/-- C8: with a deterministic external tool whose behaviour does not depend
on the scratch directory, a second pass over the directory yields a result
list no longer than the first pass's — a file already compressed below the
gain threshold (or rejected) in the first pass is not accepted again. -/
theorem c8_second_pass_no_longer (env : Env) (fs : FS) (t u : Nat)
    (H : toolScratchIndep env) (hnd : (fs.map Prod.fst).Nodup) :
    (compress_images env (runPass env fs t).fs u).length
      ≤ (compress_images env fs t).length := by
  have hkeys := runPass_map_fst env fs t H hnd
  have hnd1 : ((runPass env fs t).fs.map Prod.fst).Nodup := by
    rw [hkeys]
    exact hnd
  have h1 : compress_images env fs t
      = (fs.map Prod.fst).filterMap (passDecRecord env fs) :=
    runPass_results env fs t H hnd
  have h2 : compress_images env (runPass env fs t).fs u
      = (fs.map Prod.fst).filterMap (passDecRecord env (runPass env fs t).fs) := by
    rw [compress_images, runPass_results env _ u H hnd1, hkeys]
  rw [h1, h2]
  refine length_filterMap_mono _ _ _ ?_
  intro a _ hq
  rw [passDecRecord_isSome] at hq ⊢
  rw [runPass_fsGet env fs t H hnd a] at hq
  rcases hd : dec env a (fsGet fs a) with _ | d
  · have happ : applyDec env a (fsGet fs a) = fsGet fs a := by
      rw [applyDec, hd]
    rw [happ, hd] at hq
    simp at hq
  · simp [hd]

theorem c8_witness :
    (compress_images toolFail (runPass toolFail fsPng 0).fs 1).length
      ≤ (compress_images toolFail fsPng 0).length :=
  c8_second_pass_no_longer toolFail fsPng 0 1 toolFail_indep (by decide)

/-- C9: `main` executes exactly 10 passes of `compress_images` over the
evolving directory state, re-running the pass from scratch each time, and
the per-pass total it reports equals the sum over that pass's results of
`original_size - new_size`, with no other cross-pass state. -/
theorem c9_main_ten_passes (env : Env) (fs : FS) :
    (passResultsSeq env 10 fs 0).length = 10
    ∧ main_run env fs
        = (passResultsSeq env 10 fs 0).map
            (fun rs => (rs.map
              (fun img => (img.original_size : Int) - (img.new_size : Int))).sum) := by
  refine ⟨passResultsSeq_length env 10 fs 0, ?_⟩
  rw [main_run, main_spaces_eq env 10 fs 0]
  refine List.map_congr_left ?_
  intro rs _
  exact spaceOf_eq_sum rs

/-- C10: every record returned by `compress_images` satisfies
`new_size < original_size` strictly (acceptance forces
`100 * new_size < 99 * original_size`), so each recorded saving is strictly
positive. -/
theorem c10_recorded_savings_positive (env : Env) (fs : FS) (t : Nat)
    (r : CompressedImageInfo) (hr : r ∈ compress_images env fs t) :
    r.new_size < r.original_size := by
  refine results_new_lt env (fs.map Prod.fst) (initSt fs t) ?_ r hr
  intro r hr
  simp [initSt] at hr

theorem c10_witness :
    (CompressedImageInfo.mk "a.png" 4 0).new_size
      < (CompressedImageInfo.mk "a.png" 4 0).original_size :=
  c10_recorded_savings_positive toolEmpty fsPng 0
    (CompressedImageInfo.mk "a.png" 4 0)
    (show CompressedImageInfo.mk "a.png" 4 0
        ∈ [CompressedImageInfo.mk "a.png" 4 0] from List.mem_singleton_self _)

end ImageCompression
